import Mathlib

/-!
Lean model of the TPT (test-time prompt tuning) evaluation code of this
repository: `tpt_eval.py` (per-sample adaptation loop, caption-ensemble
fusion) and `utils.py` (entropy, average-entropy loss, entropy-percentile
filtering).  Floating-point tensor arithmetic is modelled over `ℝ`;
batches of tensors are modelled as lists.  The orchestration skeleton of
`tpt_train_loop` (state reset, statistics accumulation, periodic
checkpointing, interrupt handling) is modelled as a computable recursion
over the list of fetched samples.
-/

namespace TTA

/- ### The adaptation loop `tpt_eval.tpt_train_loop` (lines 166-274)

The loop body is abstracted as follows:
* `α` is the type of one fetched sample `(inputs, targets, _)`, including
  its random augmentations;
* `β` is the type of the running statistics
  `(cumulative_loss, top1, top5, no_tpt_class_acc, tpt_class_acc)`;
* `P` is the type of the prompt-learner parameters, `O` the type of the
  optimizer internal state; the adaptable state is a pair `P × O`;
* `update` is one sample's `UPDATE_STATS` composite (lines 204-224).
  Because the adaptable state entering `ADAPT` is reset before every
  sample, the predictions feeding the statistics are a function of the
  sample alone, so `update` takes only the running statistics and the
  sample;
* `adapt` is `tta_net_train` plus the re-inference step: the mutation the
  gradient step applies to the prompt parameters and optimizer state.
-/

/-- Configuration of the adaptation loop: statistics update, adaptation
step, pristine prompt parameters, and `LOG_FREQUENCY`. -/
structure TptCfg (α β P O : Type) where
  update : β → α → β
  adapt : P × O → α → P × O
  initP : P
  logFreq : ℕ

/-- Observable result of `tpt_train_loop`: the returned value (or the
uncaught `NameError` raised by the post-loop flush when the loop variable
`batch_idx` was never bound), the list of checkpoint writes
`(batch_idx, stats)` in the order they are performed, and the trace of
adaptable states at every entry to `ADAPT` (i.e. just after
`net.reset(); optimizer.load_state_dict(optimizer_state)`). -/
structure LoopOut (β P O : Type) where
  ret : Except String β
  writes : List (ℕ × β)
  trace : List (P × O)

/-- Offset recovered from a checkpoint tuple (`offset, ... = checkpoint`,
line 169), `0` for a fresh run (line 171). -/
def ckptOffset {β : Type} : Option (ℕ × β) → ℕ
  | none => 0
  | some c => c.1

/-- Running statistics recovered from a checkpoint tuple (line 169), or
the freshly created meters for a fresh run (lines 172-177). -/
def ckptStats {β : Type} (c : Option (ℕ × β)) (fresh : β) : β :=
  match c with
  | none => fresh
  | some c => c.2

/-- One pass over the remaining samples: the body of
`for batch_idx, (inputs, targets, _) in enumerate(data_loader)`
(lines 184-252).  Arguments after the stream: the `enumerate` counter
`i`, the last value bound to `batch_idx` (`none` if never bound), the
running statistics, the current adaptable state, the checkpoint writes so
far and the `ADAPT`-entry trace so far.  A `KeyboardInterrupt` is
modelled as arriving while fetching sample number `interruptAt` (the
sample-loop boundary, before `batch_idx` is bound for that sample);
it stops the loop, keeping the accumulators. -/
def tptGo {α β P O : Type} (cfg : TptCfg α β P O) (snapshot : O)
    (interruptAt : Option ℕ) (offset : ℕ) :
    List α → ℕ → Option ℕ → β → P × O → List (ℕ × β) → List (P × O) →
    Option ℕ × β × List (ℕ × β) × List (P × O)
  | [], _, last, stats, _, ws, tr => (last, stats, ws, tr)
  | x :: rest, i, last, stats, _st, ws, tr =>
    if interruptAt = some i then (last, stats, ws, tr)
    else
      -- batch_idx += offset  (line 185)
      let batchIdx := i + offset
      -- net.reset(); optimizer.load_state_dict(optimizer_state)  (188-190)
      let stReset : P × O := (cfg.initP, snapshot)
      -- tta_net_train + re-inference mutate the adaptable state (192-202)
      let stNext := cfg.adapt stReset x
      -- cumulative_loss/top1/top5/class-accuracy updates (204-224)
      let statsNext := cfg.update stats x
      -- periodic checkpoint dump when batch_idx % LOG_FREQUENCY == 0 (239-248)
      let wsNext := if batchIdx % cfg.logFreq = 0 then
        ws ++ [(batchIdx, statsNext)] else ws
      tptGo cfg snapshot interruptAt offset rest (i + 1) (some batchIdx)
        statsNext stNext wsNext (tr ++ [stReset])

/-- Shallow embedding of `tpt_eval.tpt_train_loop` (lines 166-274).
`checkpoint` is the optional `(last_index, stats)` tuple, `s0` the
adaptable state at loop entry (its optimizer component is the
`deepcopy(optimizer.state_dict())` snapshot of line 180), `stream` the
samples the data loader yields, and `interruptAt` the optional
`KeyboardInterrupt` point.  After the loop, the conditional final flush
(lines 256-265) reads `batch_idx`: if the loop body never ran, that name
was never bound and the function raises `NameError` instead of
returning; otherwise it returns the cumulative statistics
(line 274). -/
def tpt_train_loop {α β P O : Type} (cfg : TptCfg α β P O)
    (checkpoint : Option (ℕ × β)) (initStats : β) (s0 : P × O)
    (stream : List α) (interruptAt : Option ℕ) : LoopOut β P O :=
  let offset := ckptOffset checkpoint
  let stats0 := ckptStats checkpoint initStats
  let snapshot := s0.2
  let r := tptGo cfg snapshot interruptAt offset stream 0 none stats0 s0 [] []
  match r.1 with
  | none => ⟨Except.error "NameError: name batch_idx is not defined",
      r.2.2.1, r.2.2.2⟩
  | some k =>
    -- final flush: if batch_idx % LOG_FREQUENCY != 0
    --              or batch_idx == len(data_loader)+offset  (line 256)
    let ws := if k % cfg.logFreq ≠ 0 ∨ k = stream.length + offset then
      r.2.2.1 ++ [(k, r.2.1)] else r.2.2.1
    ⟨Except.ok r.2.1, ws, r.2.2.2⟩

/-- Modelled from the spec: `COOP.dataloader.get_data` with a `from_idx`
offset is code of this repository that is not under `src/`; per the spec
the data source is "finite, sequential, not restartable mid-stream except
via explicit index offset" and on resume "the loop must resume iterating
the test stream starting at the checkpointed index+1".  Accordingly, the
stream handed to a loop resumed from checkpoint index `k` is the original
test stream with samples `0..k` removed. -/
def resumeStream {α : Type} (stream : List α) (k : ℕ) : List α :=
  stream.drop (k + 1)

/-- Concrete instantiation of the loop configuration over `ℕ`, used to
exercise the model on explicit inputs. -/
def natCfg : TptCfg ℕ ℕ ℕ ℕ :=
  ⟨fun b a => b + a, fun s a => (s.1 + a, s.2 + a), 0, 100⟩

/- ### Entropy of a probability vector (`utils.entropy`, lines 22-26) -/

/-- Shallow embedding of `utils.entropy`:
`-torch.sum(p * torch.log(p + 1e-7))` over a 1-D tensor. -/
noncomputable def entropy (p : List ℝ) : ℝ :=
  -((p.map (fun x => x * Real.log (x + 1e-7))).sum)

/-- A valid probability vector: non-negative entries summing to 1. -/
def isDistribution (p : List ℝ) : Prop :=
  (∀ x ∈ p, 0 ≤ x) ∧ p.sum = 1

/-- Uniform distribution over `C` classes. -/
noncomputable def uniformDist (C : ℕ) : List ℝ :=
  List.replicate C (1 / (C : ℝ))

/- ### The marginal-entropy loss (`utils.avg_entropy`, lines 112-117) -/

/-- Sum of exponentials of a row: the `logsumexp` denominator. -/
noncomputable def sumExp (l : List ℝ) : ℝ := (l.map Real.exp).sum

/-- Row-wise log-softmax:
`logits = outputs - outputs.logsumexp(dim=-1, keepdim=True)` (line 113). -/
noncomputable def logRow (row : List ℝ) : List ℝ :=
  row.map (fun x => x - Real.log (sumExp row))

/-- Smallest representable `float32` value,
`torch.finfo(avg_logits.dtype).min = -(2^128 - 2^104)` (line 115). -/
noncomputable def minReal : ℝ := -(2 ^ 128 - 2 ^ 104)

/-- Column-wise averaged log-probabilities of `utils.avg_entropy`
(line 114): `avg_logits = logits.logsumexp(dim=0) - np.log(logits.shape[0])`,
one entry per class index `c`. -/
noncomputable def avgLogits (outputs : List (List ℝ)) : List ℝ :=
  (List.range (outputs.headD []).length).map (fun c =>
    Real.log ((outputs.map (fun row => Real.exp ((logRow row).getD c 0))).sum)
      - Real.log (outputs.length : ℝ))

/-- Shallow embedding of `utils.avg_entropy` (lines 112-117): log-softmax
each row, average in log space with the log-sum-exp trick, clamp at the
representable minimum (`torch.clamp(avg_logits, min=min_real)`), and
return `-(avg_logits * torch.exp(avg_logits)).sum(dim=-1)`. -/
noncomputable def avg_entropy (outputs : List (List ℝ)) : ℝ :=
  -((((avgLogits outputs).map (fun a => max a minReal)).map
      (fun a => a * Real.exp a)).sum)

/- ### Spec-side comparison definitions for the loss claim -/

/-- Row-wise softmax: the per-view probability distribution that the
log-space computation of `avg_entropy` implicitly renormalizes its input
rows to. -/
noncomputable def softmaxRow (row : List ℝ) : List ℝ :=
  row.map (fun x => Real.exp x / sumExp row)

/-- Column-wise mean of a batch of rows: the "average distribution across
surviving views" in the spec's words. -/
noncomputable def meanColumns (rows : List (List ℝ)) : List ℝ :=
  (List.range (rows.headD []).length).map (fun c =>
    (rows.map (fun row => row.getD c 0)).sum / (rows.length : ℝ))

/-- Mathematical entropy `-Σ p·log p` of a probability vector (the
"entropy of that averaged distribution" in the spec's words; `0·log 0`
evaluates to `0` in this model, matching the usual convention). -/
noncomputable def idealEntropy (p : List ℝ) : ℝ :=
  -((p.map (fun x => x * Real.log x)).sum)

/- ### Entropy-percentile filtering (`utils.filter_on_entropy`, 282-299) -/

/-- NumPy's default linear-interpolation percentile (`np.percentile`):
sort the values, take the virtual index `q = p/100 * (n-1)`, and
interpolate linearly between the two neighbouring order statistics. -/
noncomputable def percentile (xs : List ℝ) (p : ℝ) : ℝ :=
  let s := List.insertionSort (fun a b => a ≤ b) xs
  let q := p / 100 * ((xs.length : ℝ) - 1)
  let i := ⌊q⌋₊
  let lo := s.getD i 0
  let hi := s.getD (min (i + 1) (xs.length - 1)) 0
  lo + (q - (i : ℝ)) * (hi - lo)

/-- The 0/1 keep-mask of `utils.filter_on_entropy` (lines 291-293):
per-view entropies, thresholded at their `p`-th percentile with
`0 if val > p_threshold else 1`. -/
noncomputable def keepFlags (outputs : List (List ℝ)) (p_percentile : ℝ) : List ℕ :=
  (outputs.map (fun t => entropy t)).map
    (fun v => if percentile (outputs.map (fun t => entropy t)) p_percentile < v
      then 0 else 1)

/-- Positions of the non-zero entries of a mask, in increasing order:
`torch.nonzero(torch.tensor(entropies)).squeeze(1)` (line 294). -/
def nonzeroIndices (flags : List ℕ) : List ℕ :=
  (List.range flags.length).filter (fun i => decide (flags.getD i 0 ≠ 0))

/-- Shallow embedding of `utils.filter_on_entropy` (lines 282-299):
threshold at the `p`-th percentile of the per-view entropies, build the
0/1 keep-mask (`0 if val > p_threshold else 1`), take the indices of its
non-zero positions (`torch.nonzero`), and index inputs and outputs with
them.  The `return_original` branch (lines 296-297) computes a
concatenation `torch.cat((torch.tensor([0]), indices))` but never
assigns it, exactly as the source does; `_discarded` mirrors that
dead value. -/
noncomputable def filter_on_entropy {α : Type} (inputs : List α)
    (outputs : List (List ℝ)) (p_percentile : ℝ) (return_original : Bool) :
    List α × List (List ℝ) :=
  let indices := nonzeroIndices (keepFlags outputs p_percentile)
  let _discarded := if return_original = true ∧ 0 ∉ indices then
    0 :: indices else indices
  (indices.filterMap (fun i => inputs.get? i),
   indices.filterMap (fun i => outputs.get? i))

/-- Modelled from the spec: the intended contract of the
`return_original` flag (spec §4.1 and §9) — when the canonical view 0 is
filtered out, the concatenation `torch.cat((torch.tensor([0]), indices))`
of line 297 is assigned to `indices` rather than discarded, so the
canonical view is force-included.  Used only to contrast the actual
code's behaviour with the claimed one. -/
noncomputable def filter_on_entropy_intended {α : Type} (inputs : List α)
    (outputs : List (List ℝ)) (p_percentile : ℝ) (return_original : Bool) :
    List α × List (List ℝ) :=
  let indices0 := nonzeroIndices (keepFlags outputs p_percentile)
  let indices := if return_original = true ∧ 0 ∉ indices0 then
    0 :: indices0 else indices0
  (indices.filterMap (fun i => inputs.get? i),
   indices.filterMap (fun i => outputs.get? i))

/-- Survivor indices as the spec describes them: the positions of the
views whose entropy is at most (inclusive) the `p`-th percentile
threshold, in increasing order. -/
noncomputable def keptIndices (outputs : List (List ℝ)) (p : ℝ) : List ℕ :=
  (List.range outputs.length).filter (fun i =>
    decide (entropy (outputs.getD i []) ≤
      percentile (outputs.map (fun t => entropy t)) p))

/- ### Ensemble fusion (`tpt_eval.add_caption_loss`, lines 59-125) -/

/-- Mean of a row (the centring mean inside `torch.std`). -/
noncomputable def rowMean (l : List ℝ) : ℝ := l.sum / (l.length : ℝ)

/-- Sample standard deviation of a row, `torch.std(dim=1)` with its
default Bessel correction (denominator `n - 1`). -/
noncomputable def rowStd (l : List ℝ) : ℝ :=
  Real.sqrt ((l.map (fun x => (x - rowMean l) ^ 2)).sum / ((l.length : ℝ) - 1))

/-- Row-wise L2 normalization of a pair, `F.normalize(..., dim=1)` with
its default `eps = 1e-12`: divide by `max(‖v‖₂, eps)`. -/
noncomputable def normPair (a b : ℝ) : ℝ × ℝ :=
  let n := max (Real.sqrt (a ^ 2 + b ^ 2)) 1e-12
  (a / n, b / n)

/-- One row of the `std_dev` ensemble policy (lines 101-106):
`coef = 0.08 * F.normalize(stack(std(image), std(caption)), dim=1)[:, 1]`
broadcast over the classes, then `ice = image + coef * caption`. -/
noncomputable def stdDevFuseRow (img cap : List ℝ) : List ℝ :=
  let coef := 0.08 * (normPair (rowStd img) (rowStd cap)).2
  List.zipWith (fun x y => x + coef * y) img cap

/-- One row of the `entropy` ensemble policy (lines 107-112): weights
`A = 1/(1+H(image))`, `B = 1/(1+H(caption))`, normalized by their sum. -/
noncomputable def entropyFuseRow (img cap : List ℝ) : List ℝ :=
  let A := 1 / (1 + entropy img)
  let B := 1 / (1 + entropy cap)
  let S := A + B
  List.zipWith (fun x y => A / S * x + B / S * y) img cap

/-- One row of the `harmonic_mean` ensemble policy (lines 113-115):
`(2 * image * caption).div(image + caption)` elementwise. -/
noncomputable def harmonicFuseRow (img cap : List ℝ) : List ℝ :=
  List.zipWith (fun x y => 2 * x * y / (x + y)) img cap

/-- Shallow embedding of the ensemble-fusion core of
`tpt_eval.add_caption_loss` (lines 59-125), as a function of the image
and caption probability batches, the policy string and `K`.  The
`assert K == 200` of line 96 precedes every policy branch; a failed
assertion and the unknown-policy `ValueError` are raised exceptions,
modelled as `Except.error`. -/
noncomputable def add_caption_loss (image_logits caption_logits : List (List ℝ))
    (ensamble_method : String) (K : ℕ) : Except String (List (List ℝ)) :=
  if K = 200 then
    if ensamble_method = "std_dev" then
      Except.ok (List.zipWith stdDevFuseRow image_logits caption_logits)
    else if ensamble_method = "entropy" then
      Except.ok (List.zipWith entropyFuseRow image_logits caption_logits)
    else if ensamble_method = "harmonic_mean" then
      Except.ok (List.zipWith harmonicFuseRow image_logits caption_logits)
    else Except.error "Ensamble method not implemented"
  else Except.error "For k != 200, function has to be implemented"

/- ### Helper lemmas about the adaptation loop -/

theorem tptGo_trace_mem {α β P O : Type} (cfg : TptCfg α β P O) (snapshot : O)
    (intr : Option ℕ) (off : ℕ) :
    ∀ (s : List α) (i : ℕ) (last : Option ℕ) (stats : β) (st : P × O)
      (ws : List (ℕ × β)) (tr : List (P × O)),
      ∀ y ∈ (tptGo cfg snapshot intr off s i last stats st ws tr).2.2.2,
        y ∈ tr ∨ y = (cfg.initP, snapshot) := by
  intro s
  induction s with
  | nil => intro i last stats st ws tr y hy; exact Or.inl hy
  | cons x rest ih =>
    intro i last stats st ws tr y hy
    rw [tptGo] at hy
    by_cases hint : intr = some i
    · rw [if_pos hint] at hy; exact Or.inl hy
    · rw [if_neg hint] at hy
      rcases ih _ _ _ _ _ _ y hy with h | h
      · rcases List.mem_append.mp h with h | h
        · exact Or.inl h
        · exact Or.inr (List.mem_singleton.mp h)
      · exact Or.inr h

theorem tpt_train_loop_trace {α β P O : Type} (cfg : TptCfg α β P O)
    (checkpoint : Option (ℕ × β)) (initStats : β) (s0 : P × O)
    (stream : List α) (intr : Option ℕ) :
    (tpt_train_loop cfg checkpoint initStats s0 stream intr).trace
      = (tptGo cfg s0.2 intr (ckptOffset checkpoint) stream 0 none
          (ckptStats checkpoint initStats) s0 [] []).2.2.2 := by
  rw [tpt_train_loop]
  cases h : (tptGo cfg s0.2 intr (ckptOffset checkpoint) stream 0 none
      (ckptStats checkpoint initStats) s0 [] []).1 <;> simp [h]

theorem tptGo_none_stats {α β P O : Type} (cfg : TptCfg α β P O)
    (snapshot : O) (off : ℕ) :
    ∀ (s : List α) (i : ℕ) (last : Option ℕ) (stats : β) (st : P × O)
      (ws : List (ℕ × β)) (tr : List (P × O)),
      (tptGo cfg snapshot none off s i last stats st ws tr).2.1
        = s.foldl cfg.update stats := by
  intro s
  induction s with
  | nil => intro i last stats st ws tr; rfl
  | cons x rest ih =>
    intro i last stats st ws tr
    rw [tptGo, if_neg (by simp)]
    exact ih _ _ _ _ _ _

theorem tptGo_none_last {α β P O : Type} (cfg : TptCfg α β P O)
    (snapshot : O) (off : ℕ) :
    ∀ (rest : List α) (x : α) (i : ℕ) (last : Option ℕ) (stats : β)
      (st : P × O) (ws : List (ℕ × β)) (tr : List (P × O)),
      (tptGo cfg snapshot none off (x :: rest) i last stats st ws tr).1
        = some (i + rest.length + off) := by
  intro rest
  induction rest with
  | nil =>
    intro x i last stats st ws tr
    rw [tptGo, if_neg (by simp), tptGo]
    simp
  | cons y t ih =>
    intro x i last stats st ws tr
    rw [tptGo, if_neg (by simp)]
    rw [ih y (i + 1)]
    congr 1
    simp only [List.length_cons]
    omega

theorem tptGo_none_writes_mono {α β P O : Type} (cfg : TptCfg α β P O)
    (snapshot : O) (off : ℕ) :
    ∀ (s : List α) (i : ℕ) (last : Option ℕ) (stats : β) (st : P × O)
      (ws : List (ℕ × β)) (tr : List (P × O)) (w : ℕ × β), w ∈ ws →
      w ∈ (tptGo cfg snapshot none off s i last stats st ws tr).2.2.1 := by
  intro s
  induction s with
  | nil => intro i last stats st ws tr w hw; exact hw
  | cons x rest ih =>
    intro i last stats st ws tr w hw
    rw [tptGo, if_neg (by simp)]
    apply ih
    by_cases hmod : (i + off) % cfg.logFreq = 0
    · rw [if_pos hmod]; exact List.mem_append_left _ hw
    · rwa [if_neg hmod]

theorem tptGo_none_writes_final {α β P O : Type} (cfg : TptCfg α β P O)
    (snapshot : O) (off : ℕ) :
    ∀ (rest : List α) (x : α) (i : ℕ) (last : Option ℕ) (stats : β)
      (st : P × O) (ws : List (ℕ × β)) (tr : List (P × O)),
      (i + rest.length + off) % cfg.logFreq = 0 →
      (i + rest.length + off, (x :: rest).foldl cfg.update stats)
        ∈ (tptGo cfg snapshot none off (x :: rest) i last stats st ws tr).2.2.1 := by
  intro rest
  induction rest with
  | nil =>
    intro x i last stats st ws tr hmod
    rw [tptGo, if_neg (by simp), tptGo]
    simp only [List.length_nil, Nat.add_zero] at hmod ⊢
    rw [if_pos hmod]
    simp
  | cons y t ih =>
    intro x i last stats st ws tr hmod
    rw [tptGo, if_neg (by simp)]
    have hmod2 : (i + 1 + t.length + off) % cfg.logFreq = 0 := by
      have h3 : i + 1 + t.length + off = i + (y :: t).length + off := by
        simp only [List.length_cons]; omega
      rw [h3]; exact hmod
    have h4 := ih y (i + 1) (some (i + off)) (cfg.update stats x)
      (cfg.adapt (cfg.initP, snapshot) x)
      (if (i + off) % cfg.logFreq = 0 then ws ++ [(i + off, cfg.update stats x)] else ws)
      (tr ++ [(cfg.initP, snapshot)]) hmod2
    have hidx : i + 1 + t.length + off = i + (y :: t).length + off := by
      simp only [List.length_cons]; omega
    rw [hidx] at h4
    simpa using h4

theorem tptGo_interrupt_take {α β P O : Type} (cfg : TptCfg α β P O)
    (snapshot : O) (off : ℕ) (j : ℕ) :
    ∀ (s : List α) (i : ℕ) (last : Option ℕ) (stats : β) (st : P × O)
      (ws : List (ℕ × β)) (tr : List (P × O)), i ≤ j →
      tptGo cfg snapshot (some j) off s i last stats st ws tr
        = tptGo cfg snapshot none off (s.take (j - i)) i last stats st ws tr := by
  intro s
  induction s with
  | nil => intro i last stats st ws tr _; rw [List.take_nil, tptGo, tptGo]
  | cons x rest ih =>
    intro i last stats st ws tr hij
    rcases eq_or_lt_of_le hij with heq | hlt
    · subst heq
      simp [tptGo, Nat.sub_self]
    · have hne : (some j : Option ℕ) ≠ some i := by
        simp only [ne_eq, Option.some.injEq]
        omega
      have htake : (x :: rest).take (j - i) = x :: rest.take (j - (i + 1)) := by
        have h2 : j - i = (j - (i + 1)) + 1 := by omega
        rw [h2, List.take_succ_cons]
      rw [htake, tptGo, if_neg hne, tptGo, if_neg (by simp)]
      exact ih _ _ _ _ _ _ hlt

/- ### C1: state reset before every sample -/

/-- C1: in `tpt_train_loop`, before every sample's adaptation step the
adaptable state (prompt parameters and optimizer internal state) has
been restored to the initial snapshot `(cfg.initP, s0.2)`: every entry
of the `ADAPT`-entry trace equals that snapshot and, in particular,
equals the adaptable state before the adaptation of sample 0 — no
cross-sample leakage of adaptation. -/
theorem reset_state_no_cross_sample_leakage {α β P O : Type}
    (cfg : TptCfg α β P O) (checkpoint : Option (ℕ × β)) (initStats : β)
    (s0 : P × O) (stream : List α) (intr : Option ℕ) (i : ℕ) (d : P × O)
    (h : i < (tpt_train_loop cfg checkpoint initStats s0 stream intr).trace.length) :
    (tpt_train_loop cfg checkpoint initStats s0 stream intr).trace.getD i d
      = (cfg.initP, s0.2)
    ∧ (tpt_train_loop cfg checkpoint initStats s0 stream intr).trace.getD i d
      = (tpt_train_loop cfg checkpoint initStats s0 stream intr).trace.getD 0 d := by
  have key : ∀ y ∈ (tpt_train_loop cfg checkpoint initStats s0 stream intr).trace,
      y = (cfg.initP, s0.2) := by
    intro y hy
    rw [tpt_train_loop_trace] at hy
    rcases tptGo_trace_mem cfg s0.2 intr (ckptOffset checkpoint) stream 0 none
      (ckptStats checkpoint initStats) s0 [] [] y hy with hc | hc
    · exact absurd hc (List.not_mem_nil y)
    · exact hc
  have h0 : 0 < (tpt_train_loop cfg checkpoint initStats s0 stream intr).trace.length :=
    Nat.lt_of_le_of_lt (Nat.zero_le i) h
  have hi : (tpt_train_loop cfg checkpoint initStats s0 stream intr).trace.getD i d
      = (cfg.initP, s0.2) := by
    rw [List.getD_eq_getElem _ d h]
    exact key _ (List.getElem_mem h)
  have h0v : (tpt_train_loop cfg checkpoint initStats s0 stream intr).trace.getD 0 d
      = (cfg.initP, s0.2) := by
    rw [List.getD_eq_getElem _ d h0]
    exact key _ (List.getElem_mem h0)
  exact ⟨hi, hi.trans h0v.symm⟩

/-- Witness for `reset_state_no_cross_sample_leakage` on a concrete
two-sample run. -/
theorem reset_state_no_cross_sample_leakage_witness :
    (tpt_train_loop natCfg none 0 (3, 7) [1, 2] none).trace.getD 1 (9, 9)
      = (natCfg.initP, 7)
    ∧ (tpt_train_loop natCfg none 0 (3, 7) [1, 2] none).trace.getD 1 (9, 9)
      = (tpt_train_loop natCfg none 0 (3, 7) [1, 2] none).trace.getD 0 (9, 9) :=
  reset_state_no_cross_sample_leakage natCfg none 0 (3, 7) [1, 2] none 1 (9, 9)
    (by decide)

/- ### C10: unbound loop variable on empty or immediately-interrupted runs -/

/-- C10: if the test stream yields no batches, or the interrupt arrives
before the first loop iteration binds `batch_idx`, the post-loop flush of
`tpt_train_loop` reads the never-bound loop variable and the call fails
with an unbound-variable `NameError` instead of returning cumulative
statistics. -/
theorem empty_stream_or_early_interrupt_unbound_error {α β P O : Type}
    (cfg : TptCfg α β P O) (checkpoint : Option (ℕ × β)) (initStats : β)
    (s0 : P × O) (stream : List α) (intr : Option ℕ) :
    (tpt_train_loop cfg checkpoint initStats s0 ([] : List α) intr).ret
      = Except.error "NameError: name batch_idx is not defined"
    ∧ (tpt_train_loop cfg checkpoint initStats s0 stream (some 0)).ret
      = Except.error "NameError: name batch_idx is not defined" := by
  constructor
  · simp [tpt_train_loop, tptGo]
  · cases stream with
    | nil => simp [tpt_train_loop, tptGo]
    | cons x rest => simp [tpt_train_loop, tptGo]

/- ### C5: interrupt handling -/

/-- Counterexample to C5 as stated: a run in which the user interrupt
arrives while fetching the very first sample does not stop cleanly and
return the cumulative statistics — the post-loop flush crashes with an
unbound-variable error. -/
theorem interrupt_before_first_iteration_crashes :
    (tpt_train_loop natCfg none 0 (0, 0) [5] (some 0)).ret
      = Except.error "NameError: name batch_idx is not defined" := by
  simp [tpt_train_loop, tptGo]

/-- C5 (amended): if the interrupt arrives at the sample-loop boundary
after at least one iteration has bound `batch_idx` (`1 ≤ j`), the loop
stops cleanly, returns normally with the cumulative statistics gathered
over the completed samples, and a checkpoint carrying the last completed
batch index and those statistics has been written (by the post-loop
flush, or already by the in-loop periodic dump when that index is a
multiple of `LOG_FREQUENCY`). -/
theorem interrupt_after_first_iteration_flushes {α β P O : Type}
    (cfg : TptCfg α β P O) (checkpoint : Option (ℕ × β)) (initStats : β)
    (s0 : P × O) (stream : List α) (j : ℕ) (h1 : 1 ≤ j)
    (h2 : j < stream.length) :
    (tpt_train_loop cfg checkpoint initStats s0 stream (some j)).ret
      = Except.ok ((stream.take j).foldl cfg.update (ckptStats checkpoint initStats))
    ∧ ((j - 1) + ckptOffset checkpoint,
        (stream.take j).foldl cfg.update (ckptStats checkpoint initStats))
      ∈ (tpt_train_loop cfg checkpoint initStats s0 stream (some j)).writes := by
  have htake := tptGo_interrupt_take cfg s0.2 (ckptOffset checkpoint) j stream 0
    none (ckptStats checkpoint initStats) s0 [] [] (Nat.zero_le j)
  rw [Nat.sub_zero] at htake
  have hlen : (stream.take j).length = j := by
    rw [List.length_take]; omega
  obtain ⟨w, ts, hw⟩ : ∃ w ts, stream.take j = w :: ts := by
    cases hres : stream.take j with
    | nil => rw [hres] at hlen; simp at hlen; omega
    | cons w ts => exact ⟨w, ts, rfl⟩
  have hts : ts.length = j - 1 := by
    rw [hw] at hlen; simp only [List.length_cons] at hlen; omega
  have hlast := tptGo_none_last cfg s0.2 (ckptOffset checkpoint) ts w 0 none
    (ckptStats checkpoint initStats) s0 [] []
  have hstats := tptGo_none_stats cfg s0.2 (ckptOffset checkpoint) (w :: ts) 0
    none (ckptStats checkpoint initStats) s0 [] []
  rw [hw] at htake
  have hidx : 0 + ts.length + ckptOffset checkpoint
      = (j - 1) + ckptOffset checkpoint := by omega
  constructor
  · simp only [tpt_train_loop, htake, hlast, hstats]
    rw [← hw]
  · simp only [tpt_train_loop, htake, hlast, hstats]
    rw [hw, hidx]
    by_cases hmod : ((j - 1) + ckptOffset checkpoint) % cfg.logFreq = 0
    · have hmod0 : (0 + ts.length + ckptOffset checkpoint) % cfg.logFreq = 0 := by
        rw [hidx]; exact hmod
      have hmem := tptGo_none_writes_final cfg s0.2 (ckptOffset checkpoint) ts w 0
        none (ckptStats checkpoint initStats) s0 [] [] hmod0
      rw [hidx] at hmem
      split
      · exact List.mem_append_left _ hmem
      · exact hmem
    · rw [if_pos (Or.inl hmod)]
      exact List.mem_append_right _ (List.mem_singleton.mpr rfl)

/-- Witness for `interrupt_after_first_iteration_flushes` on a concrete
run interrupted while fetching the second sample. -/
theorem interrupt_after_first_iteration_flushes_witness :
    (tpt_train_loop natCfg none 0 (0, 0) [4, 5] (some 1)).ret
      = Except.ok ((([4, 5] : List ℕ).take 1).foldl natCfg.update
          (ckptStats (none : Option (ℕ × ℕ)) 0))
    ∧ ((1 - 1) + ckptOffset (none : Option (ℕ × ℕ)),
        (([4, 5] : List ℕ).take 1).foldl natCfg.update
          (ckptStats (none : Option (ℕ × ℕ)) 0))
      ∈ (tpt_train_loop natCfg none 0 (0, 0) [4, 5] (some 1)).writes :=
  interrupt_after_first_iteration_flushes natCfg none 0 (0, 0) [4, 5] 1
    (by decide) (by decide)

/- ### C4: checkpoint resume -/

theorem tpt_train_loop_ret_cons {α β P O : Type} (cfg : TptCfg α β P O)
    (checkpoint : Option (ℕ × β)) (initStats : β) (s0 : P × O) (x : α)
    (rest : List α) :
    (tpt_train_loop cfg checkpoint initStats s0 (x :: rest) none).ret
      = Except.ok ((x :: rest).foldl cfg.update (ckptStats checkpoint initStats)) := by
  have hlast := tptGo_none_last cfg s0.2 (ckptOffset checkpoint) rest x 0 none
    (ckptStats checkpoint initStats) s0 [] []
  have hstats := tptGo_none_stats cfg s0.2 (ckptOffset checkpoint) (x :: rest) 0
    none (ckptStats checkpoint initStats) s0 [] []
  simp only [tpt_train_loop, hlast, hstats]

/-- C4 (amended): for every checkpoint `(k, stats-after-k)` taken
strictly before the end of the stream (`k + 1 < stream.length`),
resuming `tpt_train_loop` restores the running statistics and iterates
the test stream from index `k+1` (the spec-modelled `resumeStream`), and
the returned cumulative statistics are identical to those of an
uninterrupted run over the whole stream (regardless of the adaptable
state the resumed run starts from).  Resuming from a loop-end checkpoint
is excluded: there the resumed stream is empty and the loop crashes with
the unbound-variable error, as the accompanying counterexample shows. -/
theorem checkpoint_resume_matches_uninterrupted {α β P O : Type}
    (cfg : TptCfg α β P O) (initStats : β) (s0 s1 : P × O)
    (stream : List α) (k : ℕ) (hk : k + 1 < stream.length) :
    (tpt_train_loop cfg (some (k, (stream.take (k + 1)).foldl cfg.update initStats))
        initStats s1 (resumeStream stream k) none).ret
      = (tpt_train_loop cfg none initStats s0 stream none).ret
    ∧ (tpt_train_loop cfg none initStats s0 stream none).ret
      = Except.ok (stream.foldl cfg.update initStats) := by
  cases stream with
  | nil => simp at hk
  | cons z zs =>
    have hfull := tpt_train_loop_ret_cons cfg none initStats s0 z zs
    have hlen : 0 < (resumeStream (z :: zs) k).length := by
      simp only [resumeStream, List.length_drop, List.length_cons]
      simp only [List.length_cons] at hk
      omega
    obtain ⟨w, ts, hw⟩ : ∃ w ts, resumeStream (z :: zs) k = w :: ts := by
      cases hres : resumeStream (z :: zs) k with
      | nil => rw [hres] at hlen; simp at hlen
      | cons w ts => exact ⟨w, ts, rfl⟩
    have hres := tpt_train_loop_ret_cons cfg
      (some (k, ((z :: zs).take (k + 1)).foldl cfg.update initStats))
      initStats s1 w ts
    rw [hw, hres, hfull]
    constructor
    · show Except.ok ((w :: ts).foldl cfg.update
          (((z :: zs).take (k + 1)).foldl cfg.update initStats))
        = Except.ok ((z :: zs).foldl cfg.update (ckptStats none initStats))
      rw [← hw]
      show Except.ok (((z :: zs).drop (k + 1)).foldl cfg.update
          (((z :: zs).take (k + 1)).foldl cfg.update initStats)) = _
      rw [← List.foldl_append, List.take_append_drop]
      rfl
    · rfl

/-- Witness for `checkpoint_resume_matches_uninterrupted` on a concrete
three-sample stream checkpointed after its first sample. -/
theorem checkpoint_resume_matches_uninterrupted_witness :
    (tpt_train_loop natCfg
        (some (0, (([10, 20, 30] : List ℕ).take 1).foldl natCfg.update 0))
        0 (1, 1) (resumeStream [10, 20, 30] 0) none).ret
      = (tpt_train_loop natCfg none 0 (0, 0) [10, 20, 30] none).ret
    ∧ (tpt_train_loop natCfg none 0 (0, 0) [10, 20, 30] none).ret
      = Except.ok (([10, 20, 30] : List ℕ).foldl natCfg.update 0) :=
  checkpoint_resume_matches_uninterrupted natCfg 0 (0, 0) (1, 1) [10, 20, 30] 0
    (by decide)

/-- C4 counterexample: the claim fails as stated for the checkpoint
written at loop end.  Checkpoint `(1, stats-after-both-samples)` of the
two-sample stream `[10, 20]` is a checkpoint the code writes (final
flush) and `main` auto-loads the newest checkpoint, yet resuming from it
hands the loop the empty stream past index `1+1`, the loop variable is
never bound, and the call crashes with the unbound-variable `NameError`
instead of producing the uninterrupted run's statistics. -/
theorem checkpoint_resume_at_loop_end_crashes :
    (tpt_train_loop natCfg
        (some (1, (([10, 20] : List ℕ).take 2).foldl natCfg.update 0))
        0 (1, 1) (resumeStream [10, 20] 1) none).ret
      = Except.error "NameError: name batch_idx is not defined"
    ∧ (tpt_train_loop natCfg none 0 (0, 0) [10, 20] none).ret
      = Except.ok (([10, 20] : List ℕ).foldl natCfg.update 0)
    ∧ (tpt_train_loop natCfg
        (some (1, (([10, 20] : List ℕ).take 2).foldl natCfg.update 0))
        0 (1, 1) (resumeStream [10, 20] 1) none).ret
      ≠ (tpt_train_loop natCfg none 0 (0, 0) [10, 20] none).ret := by
  have h1 : (tpt_train_loop natCfg
      (some (1, (([10, 20] : List ℕ).take 2).foldl natCfg.update 0))
      0 (1, 1) (resumeStream [10, 20] 1) none).ret
      = Except.error "NameError: name batch_idx is not defined" := rfl
  have h2 : (tpt_train_loop natCfg none 0 (0, 0) [10, 20] none).ret
      = Except.ok (([10, 20] : List ℕ).foldl natCfg.update 0) := rfl
  refine ⟨h1, h2, ?_⟩
  rw [h1, h2]
  simp

/- ### Helper lemmas about entropy -/

theorem mem_le_sum_of_nonneg {l : List ℝ} (h : ∀ y ∈ l, 0 ≤ y) {x : ℝ}
    (hx : x ∈ l) : x ≤ l.sum := by
  induction l with
  | nil => simp at hx
  | cons a t ih =>
    rcases List.mem_cons.mp hx with rfl | hx2
    · have ht : 0 ≤ t.sum := List.sum_nonneg (fun y hy => h y (List.mem_cons_of_mem _ hy))
      simp only [List.sum_cons]
      linarith
    · have h2 := ih (fun y hy => h y (List.mem_cons_of_mem _ hy)) hx2
      have ha : 0 ≤ a := h a (List.mem_cons_self _ _)
      simp only [List.sum_cons]
      linarith

/- ### C7: sign and uniform value of the entropy -/

/-- Counterexample to C7 as stated: the one-hot vector `[1, 0]` is a
valid probability distribution, yet `entropy [1, 0] = -log(1 + 1e-7)` is
strictly negative, because the epsilon inside the logarithm makes the
`p = 1` term positive.  So `entropy(d) ≥ 0` fails. -/
theorem entropy_negative_at_one_hot :
    isDistribution [(1 : ℝ), 0] ∧ entropy [(1 : ℝ), 0] < 0 := by
  constructor
  · constructor
    · intro x hx
      simp only [List.mem_cons, List.not_mem_nil, or_false] at hx
      rcases hx with rfl | rfl <;> norm_num
    · norm_num
  · have h := Real.log_pos (show (1:ℝ) < 1 + 1e-7 by norm_num)
    simp only [entropy, List.map_cons, List.map_nil, List.sum_cons, List.sum_nil,
      one_mul, zero_mul, add_zero, zero_add]
    linarith

/-- C7 (amended): for every valid probability distribution `p`,
`entropy p ≥ -log(1 + 1e-7)` (a bound within the epsilon-induced
tolerance of `0`, attained arbitrarily closely at one-hot vectors), and
the entropy of the uniform distribution over `C > 0` classes is within
`C·1e-7` of `log C`. -/
theorem entropy_lower_bound_and_uniform (p : List ℝ) (C : ℕ)
    (hp : isDistribution p) (hC : 0 < C) :
    -Real.log (1 + 1e-7) ≤ entropy p
    ∧ |entropy (uniformDist C) - Real.log C| ≤ C * 1e-7 := by
  constructor
  · obtain ⟨hnn, hsum⟩ := hp
    have hbound : ((p.map (fun x => x * Real.log (x + 1e-7))).sum)
        ≤ ((p.map (fun x => x * Real.log (1 + 1e-7))).sum) := by
      apply List.sum_le_sum
      intro x hx
      have hx0 : 0 ≤ x := hnn x hx
      have hx1 : x ≤ 1 := hsum ▸ mem_le_sum_of_nonneg hnn hx
      have hlog : Real.log (x + 1e-7) ≤ Real.log (1 + 1e-7) := by
        apply (Real.log_le_log_iff (by positivity) (by norm_num)).mpr
        linarith
      exact mul_le_mul_of_nonneg_left hlog hx0
    have hsum2 : ((p.map (fun x => x * Real.log (1 + 1e-7))).sum)
        = Real.log (1 + 1e-7) := by
      have h5 := List.sum_map_mul_right (l := p) (f := fun x => x)
        (r := Real.log (1 + 1e-7))
      simp only [List.map_id'] at h5
      rw [h5, hsum, one_mul]
    rw [entropy]
    linarith
  · have hC0 : (C : ℝ) ≠ 0 := Nat.cast_ne_zero.mpr hC.ne'
    have hCpos : (0:ℝ) < C := Nat.cast_pos.mpr hC
    have h1 : entropy (uniformDist C) = -Real.log (1 / C + 1e-7) := by
      rw [entropy, uniformDist, List.map_replicate, List.sum_replicate]
      rw [nsmul_eq_mul]
      congr 1
      rw [← mul_assoc]
      rw [mul_one_div_cancel hC0, one_mul]
    rw [h1]
    have h2 : Real.log (1 / C + 1e-7) = Real.log (1 + 1e-7 * C) - Real.log C := by
      rw [← Real.log_div (by positivity : (0:ℝ) < 1 + 1e-7 * C).ne' hC0]
      congr 1
      field_simp
    rw [h2]
    have h3 : 0 ≤ Real.log (1 + 1e-7 * C) := Real.log_nonneg (by nlinarith)
    have h4 : Real.log (1 + 1e-7 * C) ≤ 1e-7 * C := by
      have h6 := Real.log_le_sub_one_of_pos (x := 1 + 1e-7 * C) (by positivity)
      linarith
    rw [abs_le]
    constructor <;>
      nlinarith [Real.log_nonneg (show (1:ℝ) ≤ C by exact_mod_cast hC)]

/-- Witness for `entropy_lower_bound_and_uniform` at the distribution
`[1/2, 1/2]` and `C = 2`. -/
theorem entropy_lower_bound_and_uniform_witness :
    -Real.log (1 + 1e-7) ≤ entropy [(1:ℝ)/2, 1/2]
    ∧ |entropy (uniformDist 2) - Real.log (2:ℕ)| ≤ (2:ℕ) * 1e-7 :=
  entropy_lower_bound_and_uniform [(1:ℝ)/2, 1/2] 2
    (by constructor
        · intro x hx
          simp only [List.mem_cons, List.not_mem_nil, or_false] at hx
          rcases hx with rfl | rfl <;> norm_num
        · norm_num)
    (by norm_num)

/- ### C8: idempotence of the harmonic-mean fusion -/

theorem harmonicFuseRow_self (a : List ℝ) : harmonicFuseRow a a = a := by
  unfold harmonicFuseRow
  induction a with
  | nil => rfl
  | cons x t ih =>
    rw [List.zipWith_cons_cons, ih]
    congr 1
    rcases eq_or_ne x 0 with h | h
    · simp [h]
    · have hxx : x + x ≠ 0 := by intro hc; exact h (by linarith)
      rw [div_eq_iff hxx]
      ring

/-- C8: for every valid probability distribution `a`, the
`harmonic_mean` ensemble policy of `add_caption_loss` applied to the
pair `(a, a)` returns `a` itself — elementwise
`2·a·a / (a + a) = a` (fusing two equal distributions is the
identity). -/
theorem harmonic_mean_idempotent (a : List ℝ) (h : isDistribution a) :
    add_caption_loss [a] [a] "harmonic_mean" 200 = Except.ok [a] := by
  rw [add_caption_loss, if_pos rfl, if_neg (by decide), if_neg (by decide),
    if_pos rfl]
  simp [harmonicFuseRow_self]

/-- Witness for `harmonic_mean_idempotent` at the distribution
`[1/2, 1/2]`. -/
theorem harmonic_mean_idempotent_witness :
    add_caption_loss [[(1:ℝ)/2, 1/2]] [[(1:ℝ)/2, 1/2]] "harmonic_mean" 200
      = Except.ok [[(1:ℝ)/2, 1/2]] :=
  harmonic_mean_idempotent [(1:ℝ)/2, 1/2]
    (by constructor
        · intro x hx
          simp only [List.mem_cons, List.not_mem_nil, or_false] at hx
          rcases hx with rfl | rfl <;> norm_num
        · norm_num)

/- ### C9: the K == 200 assertion guards every policy -/

/-- C9: for every invocation of `add_caption_loss` with `K ≠ 200`, the
`assert K == 200` fails before any fusion is computed, whichever
ensemble policy is selected — the assertion guards the `entropy` and
`harmonic_mean` policies, not only `std_dev`. -/
theorem caption_loss_asserts_K200 (image_logits caption_logits : List (List ℝ))
    (ensamble_method : String) (K : ℕ) (hK : K ≠ 200) :
    add_caption_loss image_logits caption_logits ensamble_method K
      = Except.error "For k != 200, function has to be implemented" := by
  rw [add_caption_loss, if_neg hK]

/-- Witness for `caption_loss_asserts_K200` at `K = 199` with the
`entropy` policy. -/
theorem caption_loss_asserts_K200_witness :
    add_caption_loss [] [] "entropy" 199
      = Except.error "For k != 200, function has to be implemented" :=
  caption_loss_asserts_K200 [] [] "entropy" 199 (by decide)

/- ### Helper lemmas about the percentile threshold and the filter -/

theorem sorted_getD_zero_le {s : List ℝ} (hs : s.Sorted (fun a b => a ≤ b))
    {j : ℕ} (hj : j < s.length) (d : ℝ) : s.getD 0 0 ≤ s.getD j d := by
  have h0 : 0 < s.length := Nat.lt_of_le_of_lt (Nat.zero_le j) hj
  rw [List.getD_eq_getElem _ _ hj, List.getD_eq_getElem _ _ h0]
  rcases Nat.eq_or_lt_of_le (Nat.zero_le j) with heq | hlt
  · subst heq
    exact le_refl _
  · have hrel := List.Sorted.rel_get_of_lt hs
      (a := ⟨0, h0⟩) (b := ⟨j, hj⟩) (Fin.mk_lt_mk.mpr hlt)
    simpa [List.get_eq_getElem] using hrel

theorem exists_le_percentile (xs : List ℝ) (p : ℝ) (hne : xs ≠ [])
    (hp0 : 0 ≤ p) (hp1 : p ≤ 100) :
    ∃ x ∈ xs, x ≤ percentile xs p := by
  set s := List.insertionSort (fun a b => a ≤ b) xs with hs_def
  set q := p / 100 * ((xs.length : ℝ) - 1) with hq_def
  set i := ⌊q⌋₊ with hi_def
  have hunfold : percentile xs p
      = s.getD i 0 + (q - (i : ℝ)) * (s.getD (min (i + 1) (xs.length - 1)) 0 - s.getD i 0) := rfl
  have hsort : s.Sorted (fun a b => a ≤ b) := List.sorted_insertionSort _ xs
  have hperm : s.Perm xs := List.perm_insertionSort _ xs
  have hslen : s.length = xs.length := hperm.length_eq
  have hn1 : 1 ≤ xs.length := List.length_pos.mpr hne
  have hq0 : 0 ≤ q := by
    rw [hq_def]
    apply mul_nonneg (by positivity)
    have : (1:ℝ) ≤ (xs.length : ℝ) := by exact_mod_cast hn1
    linarith
  have hqle : q ≤ ((xs.length : ℝ) - 1) := by
    rw [hq_def]
    have h1 : p / 100 ≤ 1 := by linarith
    have h2 : (0:ℝ) ≤ (xs.length : ℝ) - 1 := by
      have : (1:ℝ) ≤ (xs.length : ℝ) := by exact_mod_cast hn1
      linarith
    nlinarith
  have hilt : i < xs.length := by
    have hcast : ((xs.length : ℝ) - 1) = ((xs.length - 1 : ℕ) : ℝ) := by
      push_cast [Nat.cast_sub hn1]
      ring
    have h3 : i ≤ xs.length - 1 := by
      rw [hi_def]
      calc ⌊q⌋₊ ≤ ⌊((xs.length - 1 : ℕ) : ℝ)⌋₊ :=
            Nat.floor_le_floor (by rw [← hcast]; exact hqle)
        _ = xs.length - 1 := Nat.floor_natCast _
    omega
  have hminlt : min (i + 1) (xs.length - 1) < xs.length := by omega
  have hγ0 : 0 ≤ q - (i : ℝ) := by
    have := Nat.floor_le hq0
    rw [← hi_def] at this
    linarith
  have hγ1 : q - (i : ℝ) ≤ 1 := by
    have := Nat.lt_floor_add_one q
    rw [← hi_def] at this
    linarith
  have hlo : s.getD 0 0 ≤ s.getD i 0 :=
    sorted_getD_zero_le hsort (by omega : i < s.length) 0
  have hhi : s.getD 0 0 ≤ s.getD (min (i + 1) (xs.length - 1)) 0 :=
    sorted_getD_zero_le hsort (by omega : min (i + 1) (xs.length - 1) < s.length) 0
  have hthr : s.getD 0 0 ≤ percentile xs p := by
    rw [hunfold]
    nlinarith
  have hmem : s.getD 0 0 ∈ xs := by
    apply hperm.subset
    rw [List.getD_eq_getElem _ _ (by omega : 0 < s.length)]
    exact List.getElem_mem _
  exact ⟨s.getD 0 0, hmem, hthr⟩

theorem nonzeroIndices_keepFlags (outputs : List (List ℝ)) (p : ℝ) :
    nonzeroIndices (keepFlags outputs p) = keptIndices outputs p := by
  rw [nonzeroIndices, keptIndices]
  have hlen : (keepFlags outputs p).length = outputs.length := by
    simp [keepFlags]
  rw [hlen]
  apply List.filter_congr
  intro i hi
  have hilt : i < outputs.length := List.mem_range.mp hi
  have hflag : (keepFlags outputs p).getD i 0
      = if percentile (outputs.map (fun t => entropy t)) p < entropy outputs[i]
        then 0 else 1 := by
    rw [List.getD_eq_getElem _ _ (by rw [hlen]; exact hilt)]
    simp [keepFlags]
  have hout : outputs.getD i [] = outputs[i] := List.getD_eq_getElem _ _ hilt
  rw [hflag, hout]
  by_cases hcmp : percentile (outputs.map (fun t => entropy t)) p < entropy outputs[i]
  · simp [hcmp, not_le.mpr hcmp]
  · simp [hcmp, not_lt.mp hcmp]

theorem keptIndices_ne_nil (outputs : List (List ℝ)) (p : ℝ)
    (hne : outputs ≠ []) (hp0 : 0 ≤ p) (hp1 : p ≤ 100) :
    keptIndices outputs p ≠ [] := by
  obtain ⟨x, hx_mem, hx_le⟩ := exists_le_percentile
    (outputs.map (fun t => entropy t)) p (by simpa using hne) hp0 hp1
  obtain ⟨row, hrow_mem, rfl⟩ := List.mem_map.mp hx_mem
  obtain ⟨n, hn, hrow⟩ := List.mem_iff_getElem.mp hrow_mem
  intro hcontra
  have hmem2 : n ∈ keptIndices outputs p := by
    rw [keptIndices]
    apply List.mem_filter.mpr
    refine ⟨List.mem_range.mpr hn, ?_⟩
    rw [decide_eq_true_eq]
    rw [List.getD_eq_getElem _ _ hn, hrow]
    exact hx_le
  rw [hcontra] at hmem2
  simp at hmem2

theorem percentile_pair_10 (e0 e1 : ℝ) (h : e1 < e0) :
    percentile [e0, e1] 10 = e1 + (1/10) * (e0 - e1) := by
  have hsort : List.insertionSort (fun a b => a ≤ b) [e0, e1] = [e1, e0] := by
    simp only [List.insertionSort, List.orderedInsert]
    rw [if_neg (not_le.mpr h)]
  have hfloor : ⌊(10:ℝ)/100 * (((2:ℕ) : ℝ) - 1)⌋₊ = 0 := by
    rw [Nat.floor_eq_zero]
    norm_num
  simp only [percentile, hsort, List.length_cons, List.length_nil, Nat.zero_add]
  rw [hfloor]
  norm_num

/- ### C6: the entropy filter keeps exactly the confident views -/

/-- C6: `filter_on_entropy` keeps exactly the views whose entropy is at
most (inclusive) the computed `p`-th percentile threshold: both returned
components are obtained by indexing inputs and outputs with the same
increasing survivor index list (index alignment), and that list is
nonempty for every `p ∈ [0, 100]` on a nonempty batch — in particular
the number of survivors is at least 1 whenever `p > 0`. -/
theorem filter_on_entropy_keeps_low_entropy {α : Type} (inputs : List α)
    (outputs : List (List ℝ)) (p : ℝ) (ro : Bool) (hne : outputs ≠ [])
    (hp0 : 0 ≤ p) (hp1 : p ≤ 100) :
    (filter_on_entropy inputs outputs p ro).1
        = (keptIndices outputs p).filterMap (fun i => inputs.get? i)
    ∧ (filter_on_entropy inputs outputs p ro).2
        = (keptIndices outputs p).filterMap (fun i => outputs.get? i)
    ∧ keptIndices outputs p ≠ [] := by
  have hind := nonzeroIndices_keepFlags outputs p
  refine ⟨?_, ?_, keptIndices_ne_nil outputs p hne hp0 hp1⟩
  · show (nonzeroIndices (keepFlags outputs p)).filterMap (fun i => inputs.get? i)
        = (keptIndices outputs p).filterMap (fun i => inputs.get? i)
    rw [hind]
  · show (nonzeroIndices (keepFlags outputs p)).filterMap (fun i => outputs.get? i)
        = (keptIndices outputs p).filterMap (fun i => outputs.get? i)
    rw [hind]

/-- Witness for `filter_on_entropy_keeps_low_entropy` on a two-view
batch at `p = 10`. -/
theorem filter_on_entropy_keeps_low_entropy_witness :
    (filter_on_entropy [0, 1] [[(1:ℝ)/2, 1/2], [1, 0]] 10 false).1
        = (keptIndices [[(1:ℝ)/2, 1/2], [1, 0]] 10).filterMap
            (fun i => ([0, 1] : List ℕ).get? i)
    ∧ (filter_on_entropy [0, 1] [[(1:ℝ)/2, 1/2], [1, 0]] 10 false).2
        = (keptIndices [[(1:ℝ)/2, 1/2], [1, 0]] 10).filterMap
            (fun i => ([[(1:ℝ)/2, 1/2], [1, 0]] : List (List ℝ)).get? i)
    ∧ keptIndices [[(1:ℝ)/2, 1/2], [1, 0]] 10 ≠ [] :=
  filter_on_entropy_keeps_low_entropy [0, 1] [[(1:ℝ)/2, 1/2], [1, 0]] 10 false
    (by simp) (by norm_num) (by norm_num)

/- ### C2: the preserve-original flag is a no-op -/

/-- C2: evidence of the source defect.  First, the `return_original`
flag of `filter_on_entropy` is a no-op on every input: the concatenation
of line 297 is computed but discarded, so the result with the flag set
equals the result with the flag cleared.  Second, at a concrete failing
input — canonical view 0 near-uniform (highest entropy), view 1 one-hot,
`p = 10`, `return_original = true` — view 0 is filtered out and the
returned pair `([20], [[1, 0]])` does not contain the canonical element
`10`, whereas the spec-modelled intended filter
(`filter_on_entropy_intended`, with line 297's concatenation assigned)
returns `([10, 20], [[1/2, 1/2], [1, 0]])` and force-includes it, as the
claim requires. -/
theorem preserve_original_flag_noop :
    (∀ (α : Type) (inputs : List α) (outputs : List (List ℝ)) (p : ℝ) (ro : Bool),
      filter_on_entropy inputs outputs p ro
        = filter_on_entropy inputs outputs p false)
    ∧ filter_on_entropy [10, 20] [[(1:ℝ)/2, 1/2], [1, 0]] 10 true
        = ([20], [[(1:ℝ), 0]])
    ∧ (10:ℕ) ∉ (filter_on_entropy [10, 20] [[(1:ℝ)/2, 1/2], [1, 0]] 10 true).1
    ∧ filter_on_entropy_intended [10, 20] [[(1:ℝ)/2, 1/2], [1, 0]] 10 true
        = ([10, 20], [[(1:ℝ)/2, 1/2], [(1:ℝ), 0]])
    ∧ (10:ℕ) ∈ (filter_on_entropy_intended [10, 20] [[(1:ℝ)/2, 1/2], [1, 0]] 10 true).1 := by
  have he0 : entropy [(1:ℝ)/2, 1/2] = -Real.log (1/2 + 1e-7) := by
    simp [entropy]; ring
  have he1 : entropy [(1:ℝ), 0] = -Real.log (1 + 1e-7) := by
    simp [entropy]
  have hlt : entropy [(1:ℝ), 0] < entropy [(1:ℝ)/2, 1/2] := by
    rw [he0, he1]
    have h2 := Real.log_lt_log (show (0:ℝ) < 1/2 + 1e-7 by norm_num)
      (show (1:ℝ)/2 + 1e-7 < 1 + 1e-7 by norm_num)
    linarith
  have hmap : (([[(1:ℝ)/2, 1/2], [1, 0]] : List (List ℝ)).map (fun t => entropy t))
      = [entropy [(1:ℝ)/2, 1/2], entropy [(1:ℝ), 0]] := rfl
  have hthr := percentile_pair_10 (entropy [(1:ℝ)/2, 1/2]) (entropy [(1:ℝ), 0]) hlt
  have hflags : keepFlags [[(1:ℝ)/2, 1/2], [1, 0]] 10 = [0, 1] := by
    rw [keepFlags, hmap, hthr]
    simp only [List.map_cons, List.map_nil]
    rw [if_pos (by linarith), if_neg (by push_neg; linarith)]
  have hind : nonzeroIndices (keepFlags [[(1:ℝ)/2, 1/2], [1, 0]] 10) = [1] := by
    rw [hflags]
    decide
  have hres : filter_on_entropy [10, 20] [[(1:ℝ)/2, 1/2], [1, 0]] 10 true
      = ((nonzeroIndices (keepFlags [[(1:ℝ)/2, 1/2], [1, 0]] 10)).filterMap
           (fun i => ([10, 20] : List ℕ).get? i),
         (nonzeroIndices (keepFlags [[(1:ℝ)/2, 1/2], [1, 0]] 10)).filterMap
           (fun i => ([[(1:ℝ)/2, 1/2], [1, 0]] : List (List ℝ)).get? i)) := rfl
  have hfinal : filter_on_entropy [10, 20] [[(1:ℝ)/2, 1/2], [1, 0]] 10 true
      = ([20], [[(1:ℝ), 0]]) := by
    rw [hres, hind]
    simp
  have hres2 : filter_on_entropy_intended [10, 20] [[(1:ℝ)/2, 1/2], [1, 0]] 10 true
      = ((if (true : Bool) = true
            ∧ 0 ∉ nonzeroIndices (keepFlags [[(1:ℝ)/2, 1/2], [1, 0]] 10) then
          0 :: nonzeroIndices (keepFlags [[(1:ℝ)/2, 1/2], [1, 0]] 10)
        else nonzeroIndices (keepFlags [[(1:ℝ)/2, 1/2], [1, 0]] 10)).filterMap
          (fun i => ([10, 20] : List ℕ).get? i),
        (if (true : Bool) = true
            ∧ 0 ∉ nonzeroIndices (keepFlags [[(1:ℝ)/2, 1/2], [1, 0]] 10) then
          0 :: nonzeroIndices (keepFlags [[(1:ℝ)/2, 1/2], [1, 0]] 10)
        else nonzeroIndices (keepFlags [[(1:ℝ)/2, 1/2], [1, 0]] 10)).filterMap
          (fun i => ([[(1:ℝ)/2, 1/2], [1, 0]] : List (List ℝ)).get? i)) := rfl
  have hintended : filter_on_entropy_intended [10, 20] [[(1:ℝ)/2, 1/2], [1, 0]] 10 true
      = ([10, 20], [[(1:ℝ)/2, 1/2], [(1:ℝ), 0]]) := by
    rw [hres2, hind]
    simp
  refine ⟨?_, hfinal, by rw [hfinal]; simp, hintended, by rw [hintended]; simp⟩
  intro α inputs outputs p ro
  rfl

/- ### Helper lemmas about the averaged-entropy loss -/

theorem sumExp_pos (row : List ℝ) (h : row ≠ []) : 0 < sumExp row := by
  rw [sumExp]
  cases row with
  | nil => exact absurd rfl h
  | cons x t =>
    simp only [List.map_cons, List.sum_cons]
    have h1 : 0 < Real.exp x := Real.exp_pos x
    have h2 : 0 ≤ (t.map Real.exp).sum := by
      apply List.sum_nonneg
      intro y hy
      obtain ⟨z, _, rfl⟩ := List.mem_map.mp hy
      exact (Real.exp_pos z).le
    linarith

theorem sum_map_pos {β : Type} (l : List β) (g : β → ℝ) (hne : l ≠ [])
    (hpos : ∀ x ∈ l, 0 < g x) : 0 < (l.map g).sum := by
  cases l with
  | nil => exact absurd rfl hne
  | cons x t =>
    simp only [List.map_cons, List.sum_cons]
    have h2 : 0 ≤ (t.map g).sum := by
      apply List.sum_nonneg
      intro y hy
      obtain ⟨z, hz, rfl⟩ := List.mem_map.mp hy
      exact (hpos z (List.mem_cons_of_mem _ hz)).le
    linarith [hpos x (List.mem_cons_self x t)]

theorem map_head_le_sum {β : Type} (x : β) (t : List β) (g : β → ℝ)
    (hnn : ∀ y ∈ t, 0 ≤ g y) : g x ≤ ((x :: t).map g).sum := by
  simp only [List.map_cons, List.sum_cons]
  have h2 : 0 ≤ (t.map g).sum := by
    apply List.sum_nonneg
    intro y hy
    obtain ⟨z, hz, rfl⟩ := List.mem_map.mp hy
    exact hnn z hz
  linarith

theorem getD_map_of_lt {β γ : Type} (f : β → γ) (l : List β) (c : ℕ)
    (h : c < l.length) (d : γ) (d2 : β) :
    (l.map f).getD c d = f (l.getD c d2) := by
  rw [List.getD_eq_getElem _ _ (by simpa using h),
    List.getD_eq_getElem _ _ h, List.getElem_map]

/- ### C3: what loss `avg_entropy` actually computes -/

/-- C3 counterexample: for the single surviving valid probability
distribution `[1, 0]`, the loss `avg_entropy [[1, 0]]` does not equal
the entropy of the average of the per-view distributions (which is
`[1, 0]` itself): `avg_entropy` re-applies a log-softmax to its rows, so
it returns `H(softmax([1,0])) ≈ 0.58`, while both the code's `entropy`
and the mathematical entropy of `[1, 0]` are at most `0`. -/
theorem avg_entropy_not_entropy_of_mean :
    isDistribution [(1:ℝ), 0]
    ∧ avg_entropy [[(1:ℝ), 0]] ≠ entropy (meanColumns [[(1:ℝ), 0]])
    ∧ avg_entropy [[(1:ℝ), 0]] ≠ idealEntropy (meanColumns [[(1:ℝ), 0]]) := by
  have hdist : isDistribution [(1:ℝ), 0] := by
    constructor
    · intro x hx
      simp only [List.mem_cons, List.not_mem_nil, or_false] at hx
      rcases hx with rfl | rfl <;> norm_num
    · norm_num
  have hmean : meanColumns [[(1:ℝ), 0]] = [1, 0] := by
    rw [meanColumns]
    norm_num [List.range_succ]
  have hE : (0:ℝ) < Real.exp 1 := Real.exp_pos 1
  have hE3 : Real.exp 1 < 3 := by
    have := Real.exp_one_lt_d9
    linarith
  set L := Real.log (Real.exp 1 + 1) with hL_def
  have hsumexp : sumExp [(1:ℝ), 0] = Real.exp 1 + 1 := by
    simp [sumExp]
  have havg : avgLogits [[(1:ℝ), 0]] = [1 - L, 0 - L] := by
    rw [avgLogits]
    simp only [List.headD_cons, List.length_cons, List.length_nil]
    norm_num [List.range_succ, logRow, hsumexp]
  have hL_le : L ≤ 3 := by
    have h6 := Real.log_le_sub_one_of_pos (x := Real.exp 1 + 1) (by linarith)
    rw [← hL_def] at h6
    linarith
  have hmin1 : minReal ≤ 1 - L := by
    rw [minReal]
    have : (4:ℝ) ≤ 2 ^ 128 - 2 ^ 104 := by norm_num
    linarith
  have hmin2 : minReal ≤ 0 - L := by
    rw [minReal]
    have : (4:ℝ) ≤ 2 ^ 128 - 2 ^ 104 := by norm_num
    linarith
  have hval : avg_entropy [[(1:ℝ), 0]] = L - Real.exp 1 / (Real.exp 1 + 1) := by
    rw [avg_entropy, havg]
    simp only [List.map_cons, List.map_nil, List.sum_cons, List.sum_nil]
    rw [max_eq_left hmin1, max_eq_left hmin2]
    have he1 : Real.exp (1 - L) = Real.exp 1 / (Real.exp 1 + 1) := by
      rw [Real.exp_sub, hL_def, Real.exp_log (by linarith)]
    have he2 : Real.exp (0 - L) = 1 / (Real.exp 1 + 1) := by
      rw [Real.exp_sub, hL_def, Real.exp_log (by linarith), Real.exp_zero]
    rw [he1, he2]
    field_simp
    ring
  have hL_lb : 1 + 1 / (Real.exp 1 + 1) ≤ L := by
    have hsplit : L = 1 + Real.log ((Real.exp 1 + 1) / Real.exp 1) := by
      rw [hL_def, Real.log_div (by linarith) hE.ne', Real.log_exp]
      ring
    have hlog2 : Real.log (Real.exp 1 / (Real.exp 1 + 1))
        ≤ Real.exp 1 / (Real.exp 1 + 1) - 1 :=
      Real.log_le_sub_one_of_pos (by positivity)
    have hinv : Real.log ((Real.exp 1 + 1) / Real.exp 1)
        = -Real.log (Real.exp 1 / (Real.exp 1 + 1)) := by
      rw [← Real.log_inv]
      congr 1
      field_simp
    have hfrac : Real.exp 1 / (Real.exp 1 + 1) - 1 = -(1 / (Real.exp 1 + 1)) := by
      field_simp
    rw [hsplit, hinv]
    have := hlog2
    rw [hfrac] at this
    linarith
  have hgap : 1/2 < avg_entropy [[(1:ℝ), 0]] := by
    rw [hval]
    have hfr : Real.exp 1 / (Real.exp 1 + 1) = 1 - 1 / (Real.exp 1 + 1) := by
      field_simp
    rw [hfr]
    have h8 : 1/4 < 1 / (Real.exp 1 + 1) := by
      rw [div_lt_div_iff₀ (by norm_num) (by linarith)]
      linarith
    linarith
  refine ⟨hdist, ?_, ?_⟩
  · intro hcontra
    rw [hmean] at hcontra
    have hle : entropy [(1:ℝ), 0] ≤ 0 := by
      have h := Real.log_nonneg (show (1:ℝ) ≤ 1 + 1e-7 by norm_num)
      simp only [entropy, List.map_cons, List.map_nil, List.sum_cons, List.sum_nil,
        one_mul, zero_mul, add_zero, zero_add]
      linarith
    rw [hcontra] at hgap
    linarith
  · intro hcontra
    rw [hmean] at hcontra
    have hle : idealEntropy [(1:ℝ), 0] = 0 := by
      simp [idealEntropy, Real.log_one]
    rw [hcontra, hle] at hgap
    linarith

/-- C3 (amended): on a nonempty rectangular batch of valid per-view
probability distributions (of any realistic size, so that no clamping
occurs), `avg_entropy` equals the mathematical entropy of the average of
the softmax-renormalizations of the per-view rows — the marginal entropy
of the distributions the log-space computation implicitly renormalizes
its inputs to, not of the input rows themselves. -/
theorem avg_entropy_marginal_softmax (outputs : List (List ℝ)) (C : ℕ)
    (hne : outputs ≠ []) (hC : 0 < C)
    (hrect : ∀ row ∈ outputs, row.length = C)
    (hdist : ∀ row ∈ outputs, isDistribution row)
    (hN : outputs.length ≤ 10 ^ 30) (hCb : C ≤ 10 ^ 30) :
    avg_entropy outputs = idealEntropy (meanColumns (outputs.map softmaxRow)) := by
  obtain ⟨r0, rest, rfl⟩ : ∃ r0 rest, outputs = r0 :: rest := by
    cases outputs with
    | nil => exact absurd rfl hne
    | cons a b => exact ⟨a, b, rfl⟩
  have hr0mem : r0 ∈ r0 :: rest := List.mem_cons_self _ _
  have hr0len : r0.length = C := hrect r0 hr0mem
  have hNpos : 0 < (r0 :: rest).length := by simp
  have hNR : (0:ℝ) < ((r0 :: rest).length : ℝ) := by exact_mod_cast hNpos
  have hCR : (0:ℝ) < (C : ℝ) := by exact_mod_cast hC
  have hC0 : ((r0 :: rest).headD []).length = C := by simpa using hr0len
  have hC0' : ((((r0 :: rest).map softmaxRow)).headD []).length = C := by
    simp [softmaxRow, hr0len]
  have hrow_ne : ∀ row ∈ r0 :: rest, row ≠ [] := by
    intro row hrow hcon
    have h0 := hrect row hrow
    rw [hcon] at h0
    simp only [List.length_nil] at h0
    omega
  have hexp_logRow : ∀ row ∈ r0 :: rest, ∀ c, c < C →
      Real.exp ((logRow row).getD c 0)
        = Real.exp (row.getD c 0) / sumExp row := by
    intro row hrow c hc
    have hlen : c < row.length := by rw [hrect row hrow]; omega
    rw [logRow, getD_map_of_lt _ _ c hlen 0 0, Real.exp_sub,
      Real.exp_log (sumExp_pos row (hrow_ne row hrow))]
  have hsm_getD : ∀ row ∈ r0 :: rest, ∀ c, c < C →
      (softmaxRow row).getD c 0 = Real.exp (row.getD c 0) / sumExp row := by
    intro row hrow c hc
    have hlen : c < row.length := by rw [hrect row hrow]; omega
    rw [softmaxRow, getD_map_of_lt _ _ c hlen 0 0]
  have hcol : ∀ c, c < C →
      ((r0 :: rest).map (fun row => Real.exp ((logRow row).getD c 0))).sum
        = (((r0 :: rest).map softmaxRow).map (fun row => row.getD c 0)).sum := by
    intro c hc
    rw [List.map_map]
    congr 1
    apply List.map_congr_left
    intro row hrow
    simp only [Function.comp_apply]
    rw [hexp_logRow row hrow c hc, hsm_getD row hrow c hc]
  have hApos : ∀ c, c < C →
      0 < ((r0 :: rest).map (fun row => Real.exp ((logRow row).getD c 0))).sum := by
    intro c hc
    apply sum_map_pos _ _ (by simp)
    intro row hrow
    exact Real.exp_pos _
  have hr0d := hdist r0 hr0mem
  have hclamp : ∀ c, c < C → minReal ≤ Real.log
      (((r0 :: rest).map (fun row => Real.exp ((logRow row).getD c 0))).sum
        / ((r0 :: rest).length : ℝ)) := by
    intro c hc
    have hclen : c < r0.length := by omega
    have hentry : r0.getD c 0 ∈ r0 := by
      rw [List.getD_eq_getElem _ _ hclen]
      exact List.getElem_mem _
    have h0le : 0 ≤ r0.getD c 0 := hr0d.1 _ hentry
    have hsumExp_le : sumExp r0 ≤ (C:ℝ) * Real.exp 1 := by
      have h1 : ∀ y ∈ r0.map Real.exp, y ≤ Real.exp 1 := by
        intro y hy
        obtain ⟨z, hz, rfl⟩ := List.mem_map.mp hy
        exact Real.exp_le_exp.mpr (hr0d.2 ▸ mem_le_sum_of_nonneg hr0d.1 hz)
      have h2 := List.sum_le_card_nsmul (r0.map Real.exp) (Real.exp 1) h1
      rw [List.length_map, hr0len, nsmul_eq_mul] at h2
      rw [sumExp]
      exact h2
    have hsumExp_pos0 : 0 < sumExp r0 := sumExp_pos r0 (hrow_ne r0 hr0mem)
    have hfirst : Real.exp (r0.getD c 0) / sumExp r0
        ≤ ((r0 :: rest).map (fun row => Real.exp ((logRow row).getD c 0))).sum := by
      have h3 := map_head_le_sum r0 rest
        (fun row => Real.exp ((logRow row).getD c 0))
        (fun y _ => (Real.exp_pos _).le)
      calc Real.exp (r0.getD c 0) / sumExp r0
          = Real.exp ((logRow r0).getD c 0) := (hexp_logRow r0 hr0mem c hc).symm
        _ ≤ _ := h3
    have hA_lb : 1 / ((C:ℝ) * Real.exp 1)
        ≤ ((r0 :: rest).map (fun row => Real.exp ((logRow row).getD c 0))).sum := by
      refine le_trans ?_ hfirst
      exact div_le_div₀ (Real.exp_pos _).le (Real.one_le_exp h0le)
        hsumExp_pos0 hsumExp_le
    have hm_lb : 1 / ((C:ℝ) * Real.exp 1 * ((r0 :: rest).length : ℝ))
        ≤ ((r0 :: rest).map (fun row => Real.exp ((logRow row).getD c 0))).sum
          / ((r0 :: rest).length : ℝ) := by
      rw [← div_div]
      exact (div_le_div_iff_of_pos_right hNR).mpr hA_lb
    have hx_pos : (0:ℝ) < (C:ℝ) * Real.exp 1 * ((r0 :: rest).length : ℝ) :=
      mul_pos (mul_pos hCR (Real.exp_pos 1)) hNR
    have hy_pos : 0 < ((r0 :: rest).map
        (fun row => Real.exp ((logRow row).getD c 0))).sum
          / ((r0 :: rest).length : ℝ) :=
      div_pos (hApos c hc) hNR
    have hlog_ge := (Real.log_le_log_iff (one_div_pos.mpr hx_pos) hy_pos).mpr hm_lb
    have hsplit : Real.log (1 / ((C:ℝ) * Real.exp 1 * ((r0 :: rest).length : ℝ)))
        = -(Real.log C + 1 + Real.log ((r0 :: rest).length : ℝ)) := by
      rw [one_div, Real.log_inv,
        Real.log_mul (mul_pos hCR (Real.exp_pos 1)).ne' hNR.ne',
        Real.log_mul hCR.ne' (Real.exp_pos 1).ne', Real.log_exp]
    have hlogC : Real.log C ≤ 10 ^ 30 := by
      have h7 := Real.log_le_sub_one_of_pos hCR
      have h8 : (C:ℝ) ≤ 10 ^ 30 := by exact_mod_cast hCb
      linarith
    have hlogN : Real.log ((r0 :: rest).length : ℝ) ≤ 10 ^ 30 := by
      have h7 := Real.log_le_sub_one_of_pos hNR
      have h8 : ((r0 :: rest).length : ℝ) ≤ 10 ^ 30 := by exact_mod_cast hN
      linarith
    have hminle : minReal ≤ -(Real.log C + 1 + Real.log ((r0 :: rest).length : ℝ)) := by
      rw [minReal]
      have h9 : (10:ℝ) ^ 30 + 1 + 10 ^ 30 ≤ 2 ^ 128 - 2 ^ 104 := by norm_num
      linarith
    rw [hsplit] at hlog_ge
    linarith
  rw [avg_entropy, avgLogits, hC0, List.map_map, List.map_map,
    idealEntropy, meanColumns, hC0', List.map_map]
  congr 1
  congr 1
  apply List.map_congr_left
  intro c hc
  have hclt : c < C := List.mem_range.mp hc
  simp only [Function.comp_apply]
  rw [List.length_map]
  rw [← hcol c hclt]
  rw [← Real.log_div (hApos c hclt).ne' hNR.ne']
  rw [max_eq_left (hclamp c hclt)]
  rw [Real.exp_log (div_pos (hApos c hclt) hNR)]
  ring

/-- Witness for `avg_entropy_marginal_softmax` at the one-view batch
`[[1, 0]]`. -/
theorem avg_entropy_marginal_softmax_witness :
    avg_entropy [[(1:ℝ), 0]]
      = idealEntropy (meanColumns (([[(1:ℝ), 0]] : List (List ℝ)).map softmaxRow)) :=
  avg_entropy_marginal_softmax [[(1:ℝ), 0]] 2 (by simp) (by norm_num)
    (by intro row hrow
        simp only [List.mem_cons, List.not_mem_nil, or_false] at hrow
        rw [hrow]
        rfl)
    (by intro row hrow
        simp only [List.mem_cons, List.not_mem_nil, or_false] at hrow
        rw [hrow]
        constructor
        · intro x hx
          simp only [List.mem_cons, List.not_mem_nil, or_false] at hx
          rcases hx with rfl | rfl <;> norm_num
        · norm_num)
    (by norm_num) (by norm_num)

end TTA
